import Mathlib

/-!
Verification of the retention-matrix and session-recording subsystems.

The development shallowly embeds two modules:

* `Retention` embeds `ee/clickhouse/queries/clickhouse_retention.py`
  (`ClickhouseRetention.calculate_retention`, `_get_event_filter`,
  `_get_condition`, `_determineTimedelta`).  Python `datetime` /
  `timedelta` / `relativedelta` arithmetic is embedded by `PyDateTime`
  and `PyDelta` over the proleptic Gregorian calendar; the ClickHouse
  query is an input (`queryResult`), since `sync_execute` is an external
  collaborator.
* `SessionRec` embeds `posthog/queries/sessions/session_recording.py`
  (`SessionRecording.merge_snapshot_chunks`, `matches`,
  `collect_matching_recordings`).  Python dicts are embedded as
  insert-overwrite association lists; `capture_message` diagnostics are
  counted; `json.loads` is an abstract `decode` parameter.

An `Option` field models a Python value that may be falsy (`None` or
empty string) at its truthiness test.
-/

namespace Retention

/-- Embeds Python `datetime.datetime` (naive): calendar fields only. -/
structure PyDateTime where
  year : Nat
  month : Nat
  day : Nat
  hour : Nat
  minute : Nat
  second : Nat
  microsecond : Nat
deriving DecidableEq, Repr, Inhabited

/-- Gregorian leap-year rule, as in Python's `calendar.isleap`. -/
def isLeapYear (y : Nat) : Bool :=
  y % 4 == 0 && (y % 100 != 0 || y % 400 == 0)

/-- Number of days in month `m` of year `y`. -/
def daysInMonth (y m : Nat) : Nat :=
  if m = 2 then (if isLeapYear y then 29 else 28)
  else if m = 4 ∨ m = 6 ∨ m = 9 ∨ m = 11 then 30
  else 31

/-- The calendar day after `d` (time-of-day fields unchanged). -/
def succDay (d : PyDateTime) : PyDateTime :=
  if d.day < daysInMonth d.year d.month then { d with day := d.day + 1 }
  else if d.month < 12 then { d with month := d.month + 1, day := 1 }
  else { d with year := d.year + 1, month := 1, day := 1 }

/-- The calendar day before `d` (time-of-day fields unchanged). -/
def predDay (d : PyDateTime) : PyDateTime :=
  if 1 < d.day then { d with day := d.day - 1 }
  else if 1 < d.month then
    { d with month := d.month - 1, day := daysInMonth d.year (d.month - 1) }
  else { d with year := d.year - 1, month := 12, day := 31 }

/-- The hour after `d`. -/
def succHour (d : PyDateTime) : PyDateTime :=
  if d.hour < 23 then { d with hour := d.hour + 1 }
  else { succDay d with hour := 0 }

/-- The hour before `d`. -/
def predHour (d : PyDateTime) : PyDateTime :=
  if 0 < d.hour then { d with hour := d.hour - 1 }
  else { predDay d with hour := 23 }

/-- Iterates `f` `n` times. -/
def applyN {α : Type} (f : α → α) : Nat → α → α
  | 0, x => x
  | n + 1, x => applyN f n (f x)

/-- `dateutil.relativedelta(months := n)` addition: shift the month index
and clamp the day to the target month's length. -/
def addMonths (n : Nat) (d : PyDateTime) : PyDateTime :=
  let t := d.year * 12 + (d.month - 1) + n
  { d with year := t / 12, month := t % 12 + 1,
           day := min d.day (daysInMonth (t / 12) (t % 12 + 1)) }

/-- `dateutil.relativedelta(months := n)` subtraction, with day clamping. -/
def subMonths (n : Nat) (d : PyDateTime) : PyDateTime :=
  let t := d.year * 12 + (d.month - 1) - n
  { d with year := t / 12, month := t % 12 + 1,
           day := min d.day (daysInMonth (t / 12) (t % 12 + 1)) }

/-- Embeds the spans produced by `_determineTimedelta`: Python
`timedelta(hours|days|weeks)` and `relativedelta(months)`. -/
inductive PyDelta where
  | hours (n : Nat)
  | days (n : Nat)
  | weeks (n : Nat)
  | months (n : Nat)
deriving DecidableEq, Repr

/-- `d + delta` for the spans of `PyDelta`. -/
def addDelta (d : PyDateTime) : PyDelta → PyDateTime
  | .hours n => applyN succHour n d
  | .days n => applyN succDay n d
  | .weeks n => applyN succDay (7 * n) d
  | .months n => addMonths n d

/-- `d - delta` for the spans of `PyDelta`. -/
def subDelta (d : PyDateTime) : PyDelta → PyDateTime
  | .hours n => applyN predHour n d
  | .days n => applyN predDay n d
  | .weeks n => applyN predDay (7 * n) d
  | .months n => subMonths n d

/-- `d.replace(hour=0, minute=0, second=0, microsecond=0)`. -/
def truncMidnight (d : PyDateTime) : PyDateTime :=
  { d with hour := 0, minute := 0, second := 0, microsecond := 0 }

/-- Leap years in `[1, y]`, for the ordinal computation. -/
def leapsBefore (y : Nat) : Nat :=
  y / 4 + y / 400 - y / 100

/-- Days from 0001-01-01 to `y`-01-01. -/
def daysBeforeYear (y : Nat) : Nat :=
  (y - 1) * 365 + leapsBefore (y - 1)

/-- Days from `y`-01-01 to `y`-`m`-01. -/
def daysBeforeMonth (y m : Nat) : Nat :=
  ((List.range (m - 1)).map (fun k => daysInMonth y (k + 1))).sum

/-- Python `datetime.toordinal()`: 0001-01-01 is day 1. -/
def toOrdinal (d : PyDateTime) : Nat :=
  daysBeforeYear d.year + daysBeforeMonth d.year d.month + d.day

/-- Python `datetime.isoweekday()`: Monday = 1 … Sunday = 7. -/
def isoweekday (d : PyDateTime) : Nat :=
  let r := toOrdinal d % 7
  if r = 0 then 7 else r

end Retention

/-- Embeds Python `d[k] = v` on a dict represented as an association
list: overwrite in place, or append a fresh key at the end. -/
def dictInsert {κ ν : Type} [DecidableEq κ] (k : κ) (v : ν) :
    List (κ × ν) → List (κ × ν)
  | [] => [(k, v)]
  | (k1, v1) :: rest =>
    if k1 = k then (k, v) :: rest else (k1, v1) :: dictInsert k v rest

/-- Embeds Python `d.get(k)`: `none` when the key is absent. -/
def dictGet {κ ν : Type} [DecidableEq κ] (k : κ) : List (κ × ν) → Option ν
  | [] => none
  | (k1, v1) :: rest => if k1 = k then some v1 else dictGet k rest

namespace Retention

/-- `posthog.constants.RETENTION_FIRST_TIME`. -/
def RETENTION_FIRST_TIME : String := "retention_first_time"

/-- `posthog.constants.TREND_FILTER_TYPE_ACTIONS`. -/
def TREND_FILTER_TYPE_ACTIONS : String := "actions"

/-- `posthog.constants.TREND_FILTER_TYPE_EVENTS`. -/
def TREND_FILTER_TYPE_EVENTS : String := "events"

/-- Embeds `posthog.models.entity.Entity`: a `type` tag and an
identifier (an event name, or an action's primary key rendered as a
string). -/
structure REntity where
  type : String
  id : String
deriving DecidableEq, Repr

/-- The fields of `posthog.models.filter.Filter` read by the retention
query.  `none` models a Python-falsy field (`None`, or the empty
string for `period`). -/
structure RetFilter where
  period : Option String
  date_to : Option PyDateTime
  retention_type : String
  target_entity : Option REntity
  entities : List REntity
deriving DecidableEq, Repr

/-- Embeds `ClickhouseRetention._determineTimedelta`: maps a period
token to `(tdelta, trunc_func, t1)`; an unsupported period raises
`ValueError`, embedded as `Except.error`. -/
def _determineTimedelta (total_intervals : Nat) (period : String) :
    Except String (PyDelta × String × PyDelta) :=
  if period = "Hour" then
    .ok (.hours total_intervals, "toStartOfHour", .hours 1)
  else if period = "Week" then
    .ok (.weeks total_intervals, "toStartOfWeek", .weeks 1)
  else if period = "Day" then
    .ok (.days total_intervals, "toStartOfDay", .days 1)
  else if period = "Month" then
    .ok (.months total_intervals, "toStartOfMonth", .months 1)
  else
    .error ("Period " ++ period ++ " is unsupported.")

/-- Embeds the date-resolution block of `calculate_retention`
(lines 31–41): first `filter._date_to` is overwritten with
`(filter.date_to or now) + t1`, then `date_to` is re-read from the
filter (hence already includes `+ t1`), truncated to midnight for
non-hour periods, and `date_from = date_to - tdelta`.  Returns
`(date_to, date_from)`. -/
def resolveDates (filter : RetFilter) (nowTime : PyDateTime)
    (tdelta t1 : PyDelta) (period : String) : PyDateTime × PyDateTime :=
  let stored := addDelta (filter.date_to.getD nowTime) t1
  if period = "Hour" then
    (stored, subDelta stored tdelta)
  else
    let date_to := truncMidnight stored
    (date_to, subDelta date_to tdelta)

/-- One value cell of the retention matrix: `{"count": …, "people": []}`
(the `people` list is always empty in this code path). -/
structure RetCell where
  count : Nat
deriving DecidableEq, Repr, Inhabited

/-- One row of `calculate_retention`'s return value. -/
structure RetRow where
  values : List RetCell
  label : String
  date : PyDateTime
deriving DecidableEq, Repr, Inhabited

/-- Embeds the `result_dict` fold of `calculate_retention`: each query
row `(res[0], res[1], res[2])` is written at key `(res[0], res[1])`,
last write winning. -/
def foldResultDict (rows : List (Nat × Nat × Nat)) :
    List ((Nat × Nat) × Nat) :=
  rows.foldl (fun acc r => dictInsert (r.1, r.2.1) r.2.2 acc) []

/-- The row anchor `date_from + _determineTimedelta(first_day, period)[0]`.
The error branch is unreachable: the period was already validated. -/
def rowDate (date_from : PyDateTime) (period : String) (first_day : Nat) :
    PyDateTime :=
  match _determineTimedelta first_day period with
  | .ok (td, _, _) => addDelta date_from td
  | .error _ => date_from

/-- Embeds `ClickhouseRetention.calculate_retention`.  The ClickHouse
round trip (`sync_execute` of `RETENTION_SQL`) is an external
collaborator, so its result rows `(res[0], res[1], res[2])` are the
input `queryResult`; `nowTime` stands for `django.utils.timezone.now()`. -/
def calculate_retention (filter : RetFilter) (nowTime : PyDateTime)
    (total_intervals : Nat) (queryResult : List (Nat × Nat × Nat)) :
    Except String (List RetRow) :=
  let period := filter.period.getD "Day"
  match _determineTimedelta total_intervals period with
  | .error e => .error e
  | .ok (tdelta, _, t1) =>
    let dates := resolveDates filter nowTime tdelta t1 period
    let date_from := dates.2
    let result_dict := foldResultDict queryResult
    let date_from :=
      if period = "Week" then
        subDelta date_from (.days (isoweekday date_from % 7))
      else date_from
    .ok ((List.range total_intervals).map (fun first_day =>
      { values := (List.range (total_intervals - first_day)).map (fun day =>
          { count := (dictGet (first_day, day) result_dict).getD 0 }),
        label := period ++ " " ++ toString first_day,
        date := rowDate date_from period first_day }))

/-- The predicate expression tree of the SQL fragments built by
`_get_event_filter` / `_get_condition`: each constructor mirrors one
format-string production of the source (the `%(…)s` parameter dict is
inlined into the leaf it binds). -/
inductive SqlCond where
  /-- `e.event = %({prepend}_event)s` with the parameter bound to `name`. -/
  | eventEq (name : String)
  /-- `e.uuid IN ({action subquery})` from `format_action_filter`. -/
  | actionIn (actionId : String) (prepend : String)
  /-- `{trunc_func}(toDateTime(%(start_date)s)) = {trunc_func}(timestamp)`. -/
  | anchorEq (trunc_func : String)
  | and2 (a b : SqlCond)
  | or2 (a b : SqlCond)
deriving DecidableEq, Repr

/-- The default `Entity({"id": "$pageview", "type": TREND_FILTER_TYPE_EVENTS})`. -/
def pageviewEntity : REntity :=
  { type := TREND_FILTER_TYPE_EVENTS, id := "$pageview" }

/-- Embeds `ClickhouseRetention._get_condition` (SQL text and parameter
dict fused into a `SqlCond`). -/
def _get_condition (target_entity : REntity) (prepend : String) : SqlCond :=
  if target_entity.type = TREND_FILTER_TYPE_ACTIONS then
    .actionIn target_entity.id prepend
  else if target_entity.type = TREND_FILTER_TYPE_EVENTS then
    .eventEq target_entity.id
  else
    .eventEq "$pageview"

/-- The returning entity chosen by `_get_event_filter`: in first-time
mode the first element of `filter.entities` (default pageview),
otherwise the target entity itself. -/
def returningEntityOf (first_time_retention : Bool) (filter : RetFilter) :
    REntity :=
  if first_time_retention then
    match filter.entities with
    | [] => pageviewEntity
    | e :: _ => e
  else filter.target_entity.getD pageviewEntity

/-- Embeds `ClickhouseRetention._get_event_filter`, returning the
`(target_query, returning_query)` predicates (without the glue `AND `
prefix the source prepends when splicing them into `RETENTION_SQL`). -/
def _get_event_filter (filter : RetFilter) (trunc : String) :
    SqlCond × SqlCond :=
  let first_time_retention := filter.retention_type = RETENTION_FIRST_TIME
  let target_entity := filter.target_entity.getD pageviewEntity
  let returning_entity := returningEntityOf first_time_retention filter
  let target_query := _get_condition target_entity ""
  let returning_query :=
    _get_condition returning_entity
      (if first_time_retention then "returning" else "")
  (target_query,
   if first_time_retention then
     .or2 target_query (.and2 returning_query (.anchorEq trunc))
   else target_query)

/-- A row of the events table as seen by the generated predicates:
its event name and the value of `trunc_func(timestamp)` (one bucket
start instant, encoded as an integer). -/
structure SqlEvent where
  event : String
  bucket : Int
deriving DecidableEq, Repr

/-- Satisfaction of a generated predicate by an event row.
`actionMatch` interprets the opaque action subquery of
`format_action_filter`; `startBucket` is the value of
`trunc_func(toDateTime(%(start_date)s))`. -/
def evalCond (actionMatch : String → SqlEvent → Bool) (startBucket : Int)
    (e : SqlEvent) : SqlCond → Bool
  | .eventEq name => e.event == name
  | .actionIn aid _ => actionMatch aid e
  | .anchorEq _ => e.bucket == startBucket
  | .and2 a b =>
    evalCond actionMatch startBucket e a && evalCond actionMatch startBucket e b
  | .or2 a b =>
    evalCond actionMatch startBucket e a || evalCond actionMatch startBucket e b

end Retention

namespace SessionRec

/-- One chunk fragment: a stream element whose `posthog_chunked` marker
is truthy, with its `snapshot_id`, `chunk_index`, `chunk_count` and
`chunk_data` entries. -/
structure Chunk where
  snapshot_id : String
  chunk_index : Nat
  chunk_count : Nat
  chunk_data : String
deriving DecidableEq, Repr

/-- One element of `unmerged_snapshots`: a chunk fragment, or a full
(non-chunked) snapshot payload of type `α` (the structured values
`json.loads` also produces). -/
inductive SnapItem (α : Type) where
  | chunk (c : Chunk)
  | full (v : α)
deriving DecidableEq

/-- The mutable collector dict of `merge_snapshot_chunks`: the declared
`count` (set once, from the first fragment seen) and the
`chunks[chunk_index] = chunk_data` dict. -/
structure Collector where
  count : Nat
  chunks : List (Nat × String)
deriving DecidableEq, Repr

/-- The first pass of `merge_snapshot_chunks` (lines 68–83): builds
`snapshot_collectors` (keyed by `snapshot_id`) and
`snapshots_and_collectors` (the order list: a collector is listed at
its first fragment, a full snapshot at its own arrival).  Since the
Python order list aliases the mutable collector dicts, the embedding
records group ids in the order list and reads the final map in the
second pass. -/
def pass1 {α : Type} : List (SnapItem α) → List (String × Collector) →
    List (String × Collector) × List (String ⊕ α)
  | [], m => (m, [])
  | .full v :: rest, m =>
    let r := pass1 rest m
    (r.1, Sum.inr v :: r.2)
  | .chunk c :: rest, m =>
    match dictGet c.snapshot_id m with
    | some col =>
      let r := pass1 rest
        (dictInsert c.snapshot_id
          { col with chunks := dictInsert c.chunk_index c.chunk_data col.chunks }
          m)
      (r.1, r.2)
    | none =>
      let r := pass1 rest
        (dictInsert c.snapshot_id
          ⟨c.chunk_count, [(c.chunk_index, c.chunk_data)]⟩ m)
      (r.1, Sum.inl c.snapshot_id :: r.2)

/-- The completeness-and-concatenation loop of the second pass
(lines 88–94): walk `i` from `0` to `count - 1`, fail on a missing or
falsy (empty-string) `chunks.get(i)`, otherwise append `chunks[i]`.
`assembleAux chunks n` is the state after the first `n` indices. -/
def assembleAux (chunks : List (Nat × String)) : Nat → Option String
  | 0 => some ""
  | n + 1 =>
    match assembleAux chunks n with
    | none => none
    | some acc =>
      match dictGet n chunks with
      | none => none
      | some s => if s = "" then none else some (acc ++ s)

/-- The second pass of `merge_snapshot_chunks` (lines 85–104): emit
full snapshots as-is; for a collector, emit `decode` of the in-index-
order concatenation when complete, otherwise count one
`capture_message` diagnostic.  The `none` lookup branch is unreachable
for maps produced by `pass1`. -/
def pass2 {α : Type} (decode : String → α) (m : List (String × Collector)) :
    List (String ⊕ α) → List α × Nat
  | [] => ([], 0)
  | Sum.inr v :: rest =>
    let r := pass2 decode m rest
    (v :: r.1, r.2)
  | Sum.inl sid :: rest =>
    let r := pass2 decode m rest
    match dictGet sid m with
    | none => (r.1, r.2)
    | some col =>
      match assembleAux col.chunks col.count with
      | some data => (decode data :: r.1, r.2)
      | none => (r.1, r.2 + 1)

/-- Embeds `SessionRecording.merge_snapshot_chunks`.  `decode` stands
for `json.loads`; the returned `Nat` counts the `capture_message`
diagnostics (the `team`/`session_id` arguments of the source only feed
that message's text). -/
def merge_snapshot_chunks {α : Type} (decode : String → α)
    (unmerged_snapshots : List (SnapItem α)) : List α × Nat :=
  let p := pass1 unmerged_snapshots []
  pass2 decode p.1 p.2

/-- The fragments of group `sid`, in arrival order. -/
def fragmentsOf {α : Type} (sid : String) : List (SnapItem α) → List Chunk
  | [] => []
  | .chunk c :: rest =>
    if c.snapshot_id = sid then c :: fragmentsOf sid rest
    else fragmentsOf sid rest
  | .full _ :: rest => fragmentsOf sid rest

/-- The declared total the completeness test uses for group `sid`:
the `chunk_count` of the group's first-seen fragment. -/
def declaredCount {α : Type} (sid : String) (items : List (SnapItem α)) : Nat :=
  match fragmentsOf sid items with
  | [] => 0
  | c :: _ => c.chunk_count

/-- The final `chunks` dict of group `sid`: all its fragments written
in arrival order, last write winning per index. -/
def finalChunks {α : Type} (sid : String) (items : List (SnapItem α)) :
    List (Nat × String) :=
  (fragmentsOf sid items).foldl
    (fun d c => dictInsert c.chunk_index c.chunk_data d) []

/-- The stream's logical units in first-appearance order: each full
snapshot at its own position, each group id at its first fragment's
position (`seen` carries the group ids already listed). -/
def firstSeenUnits {α : Type} : List (SnapItem α) → List String →
    List (String ⊕ α)
  | [], _ => []
  | .full v :: rest, seen => Sum.inr v :: firstSeenUnits rest seen
  | .chunk c :: rest, seen =>
    if c.snapshot_id ∈ seen then firstSeenUnits rest seen
    else Sum.inl c.snapshot_id :: firstSeenUnits rest (c.snapshot_id :: seen)

/-- What one logical unit contributes to the output: a full snapshot
itself; a group, the decoding of its in-index-order concatenation when
complete, and nothing otherwise. -/
def emitOf {α : Type} (decode : String → α) (items : List (SnapItem α)) :
    String ⊕ α → Option α
  | Sum.inr v => some v
  | Sum.inl sid =>
    (assembleAux (finalChunks sid items) (declaredCount sid items)).map decode

/-- One abstract session row, with the fields `matches` reads.
Timestamps are instants on a linear scale, embedded as integers. -/
structure SessionSpan where
  distinct_id : String
  start_time : Int
  end_time : Int
deriving DecidableEq, Repr

/-- One recording candidate row returned by `query_sessions_in_range`,
with the fields `matches` and `collect_matching_recordings` read. -/
structure Recording where
  session_id : String
  distinct_id : String
  start_time : Int
  end_time : Int
deriving DecidableEq, Repr

/-- The fields of `SessionsFilter` read by the correlation functions. -/
structure SessionsFilter where
  recording_unseen_filter : Bool
  limit_by_recordings : Bool
deriving DecidableEq, Repr

/-- The `{"id": …, "viewed": …}` annotation yielded per match. -/
structure CorrelatedRecording where
  id : String
  viewed : Bool
deriving DecidableEq, Repr

/-- Embeds `session_recording.matches` (lines 180–186; `matches` is a
reserved token in Lean, hence the name).  The viewed set is a list of
session ids with membership lookup. -/
def recordingMatches (session : SessionSpan) (session_recording : Recording)
    (filter : SessionsFilter) (viewed : List String) : Bool :=
  session.distinct_id == session_recording.distinct_id
    && decide (session.start_time ≤ session_recording.end_time)
    && decide (session.end_time ≥ session_recording.start_time)
    && (!filter.recording_unseen_filter
        || !(viewed.contains session_recording.session_id))

/-- Embeds the generator `collect_matching_recordings` (lines 172–177),
materialized as the list of its yields in order. -/
def collect_matching_recordings (session : SessionSpan)
    (session_recordings : List Recording) (filter : SessionsFilter)
    (viewed : List String) : List CorrelatedRecording :=
  match session_recordings with
  | [] => []
  | recording :: rest =>
    if recordingMatches session recording filter viewed then
      ⟨recording.session_id, viewed.contains recording.session_id⟩
        :: collect_matching_recordings session rest filter viewed
    else
      collect_matching_recordings session rest filter viewed

/-- The collector state group `sid` reaches after `fs` further
fragments, starting from `o` (its prior state, `none` if unseen):
the declared count is frozen at creation, the chunk dict accumulates
every fragment. -/
def extendCol (o : Option Collector) (fs : List Chunk) : Option Collector :=
  match o, fs with
  | some col, _ =>
    some ⟨col.count,
          fs.foldl (fun d c => dictInsert c.chunk_index c.chunk_data d) col.chunks⟩
  | none, [] => none
  | none, c :: _ =>
    some ⟨c.chunk_count,
          fs.foldl (fun d c => dictInsert c.chunk_index c.chunk_data d) []⟩

/-- `true` for every unit other than the chunk group `g`. -/
def isNotGroup {α : Type} (g : String) : String ⊕ α → Bool
  | Sum.inl s => !(s == g)
  | Sum.inr _ => true

/-- Rewrites the `chunk_count` declared by every fragment that is not
the first of its group to `h` of that fragment (`seen` lists the groups
whose first fragment already passed). -/
def overrideLaterCounts {α : Type} (h : Chunk → Nat) :
    List (SnapItem α) → List String → List (SnapItem α)
  | [], _ => []
  | .full v :: rest, seen => .full v :: overrideLaterCounts h rest seen
  | .chunk c :: rest, seen =>
    if c.snapshot_id ∈ seen then
      .chunk { c with chunk_count := h c } :: overrideLaterCounts h rest seen
    else
      .chunk c :: overrideLaterCounts h rest (c.snapshot_id :: seen)

/-- The `chunk_data` of the fragment of `l` with `chunk_index = i`
(empty when absent). -/
def indexData (l : List Chunk) (i : Nat) : String :=
  match l.find? (fun c => c.chunk_index == i) with
  | some c => c.chunk_data
  | none => ""

/-- Concatenation of a list of strings, in order. -/
def concatStrings : List String → String
  | [] => ""
  | s :: rest => s ++ concatStrings rest

end SessionRec

theorem getD_map_range {β : Type} (f : Nat → β) (n i : Nat) (d : β)
    (h : i < n) : ((List.range n).map f).getD i d = f i := by
  rw [List.getD_eq_getElem?_getD, List.getElem?_map, List.getElem?_range h]
  rfl

namespace Retention

/-- C8: a period token outside {Hour, Day, Week, Month} makes
`calculate_retention` fail with `_determineTimedelta`'s configuration
error, whatever the query would have returned (`qres` is arbitrary, so
no partial result is derived from it). -/
theorem calculate_retention_unsupported_period (filter : RetFilter)
    (nowTime : PyDateTime) (N : Nat) (qres : List (Nat × Nat × Nat))
    (p : String) (hp : filter.period = some p) (h1 : p ≠ "Hour")
    (h2 : p ≠ "Week") (h3 : p ≠ "Day") (h4 : p ≠ "Month") :
    calculate_retention filter nowTime N qres
      = Except.error ("Period " ++ p ++ " is unsupported.")
    ∧ _determineTimedelta N p
      = Except.error ("Period " ++ p ++ " is unsupported.") := by
  have hdet : _determineTimedelta N p
      = Except.error ("Period " ++ p ++ " is unsupported.") := by
    simp [_determineTimedelta, h1, h2, h3, h4]
  refine ⟨?_, hdet⟩
  simp [calculate_retention, hp, hdet]

/-- Witness for C8 at the concrete period `"Minute"`. -/
theorem calculate_retention_unsupported_period_witness :
    calculate_retention ⟨some "Minute", none, "", none, []⟩
        ⟨2021, 1, 1, 0, 0, 0, 0⟩ 11 []
      = Except.error ("Period " ++ "Minute" ++ " is unsupported.")
    ∧ _determineTimedelta 11 "Minute"
      = Except.error ("Period " ++ "Minute" ++ " is unsupported.") :=
  calculate_retention_unsupported_period ⟨some "Minute", none, "", none, []⟩
    ⟨2021, 1, 1, 0, 0, 0, 0⟩ 11 [] "Minute" rfl (by decide) (by decide)
    (by decide) (by decide)

/-- C5, counterexample: with period `Day`, no supplied `date_to` and
now = 2021-01-15 10:30, the resolved anchor is 2021-01-16 00:00 — the
midnight truncation of now **plus one period increment** (`t1`), not of
now itself (2021-01-15 00:00), because `calculate_retention` first
overwrites `filter._date_to` with `(date_to or now) + t1`. -/
theorem resolveDates_counterexample :
    _determineTimedelta 2 "Day"
      = Except.ok (.days 2, "toStartOfDay", .days 1)
    ∧ resolveDates ⟨some "Day", none, "", none, []⟩
        ⟨2021, 1, 15, 10, 30, 0, 0⟩ (.days 2) (.days 1) "Day"
      = (⟨2021, 1, 16, 0, 0, 0, 0⟩, ⟨2021, 1, 14, 0, 0, 0, 0⟩)
    ∧ (⟨2021, 1, 16, 0, 0, 0, 0⟩ : PyDateTime)
      ≠ truncMidnight ⟨2021, 1, 15, 10, 30, 0, 0⟩ :=
  ⟨rfl, rfl, by decide⟩

/-- C5 as amended: for a non-hour period with no supplied `date_to`,
the anchor `date_to` is `now + t1` truncated to midnight (where
`(tdelta, _, t1)` is `_determineTimedelta`'s span for the period), and
`date_from = date_to - tdelta`. -/
theorem resolveDates_no_date_to (filter : RetFilter) (nowTime : PyDateTime)
    (N : Nat) (period tf : String) (tdelta t1 : PyDelta)
    (_hdet : _determineTimedelta N period = .ok (tdelta, tf, t1))
    (hp : period ≠ "Hour") (hdt : filter.date_to = none) :
    resolveDates filter nowTime tdelta t1 period
      = (truncMidnight (addDelta nowTime t1),
         subDelta (truncMidnight (addDelta nowTime t1)) tdelta) := by
  simp [resolveDates, hdt, hp]

/-- Witness for the amended C5 at period `Day`, `N = 2`,
now = 2021-01-15 10:30. -/
theorem resolveDates_no_date_to_witness :
    resolveDates ⟨some "Day", none, "", none, []⟩ ⟨2021, 1, 15, 10, 30, 0, 0⟩
        (.days 2) (.days 1) "Day"
      = (truncMidnight (addDelta ⟨2021, 1, 15, 10, 30, 0, 0⟩ (.days 1)),
         subDelta (truncMidnight (addDelta ⟨2021, 1, 15, 10, 30, 0, 0⟩ (.days 1)))
           (.days 2)) :=
  resolveDates_no_date_to ⟨some "Day", none, "", none, []⟩
    ⟨2021, 1, 15, 10, 30, 0, 0⟩ 2 "Day" "toStartOfDay" (.days 2) (.days 1)
    rfl (by decide) rfl

/-- C1, counterexample: in first-time mode (target entity the event
`"signup"`, returning entity the event `"$pageview"`), an event row
that matches the returning entity's condition in a non-anchor bucket
(bucket 5, anchor 0) does **not** satisfy the generated returning
predicate: the code attaches the anchor-bucket restriction to the
returning condition, not to the target condition. -/
theorem returning_predicate_counterexample :
    evalCond (fun _ _ => false) 0 ⟨"$pageview", 5⟩
        ((_get_event_filter
            ⟨some "Day", none, RETENTION_FIRST_TIME,
             some ⟨TREND_FILTER_TYPE_EVENTS, "signup"⟩,
             [⟨TREND_FILTER_TYPE_EVENTS, "$pageview"⟩]⟩
            "toStartOfDay").2)
      = false
    ∧ evalCond (fun _ _ => false) 0 ⟨"$pageview", 5⟩
        (_get_condition
          (returningEntityOf true
            ⟨some "Day", none, RETENTION_FIRST_TIME,
             some ⟨TREND_FILTER_TYPE_EVENTS, "signup"⟩,
             [⟨TREND_FILTER_TYPE_EVENTS, "$pageview"⟩]⟩)
          "returning")
      = true
    ∧ (5 : Int) ≠ 0 := by
  decide

/-- C1 as amended: in first-time mode the generated returning predicate
is satisfied exactly by events matching the target condition (in any
bucket), or matching the returning entity's condition with a timestamp
in the anchor bucket. -/
theorem returning_predicate_first_time (filter : RetFilter) (trunc : String)
    (am : String → SqlEvent → Bool) (sb : Int) (e : SqlEvent)
    (h : filter.retention_type = RETENTION_FIRST_TIME) :
    evalCond am sb e ((_get_event_filter filter trunc).2)
      = (evalCond am sb e ((_get_event_filter filter trunc).1)
         || (evalCond am sb e
               (_get_condition (returningEntityOf true filter) "returning")
             && (e.bucket == sb))) := by
  simp [_get_event_filter, h, evalCond]

/-- Witness for the amended C1 at the counterexample's filter and event. -/
theorem returning_predicate_first_time_witness :
    evalCond (fun _ _ => false) 0 ⟨"$pageview", 5⟩
        ((_get_event_filter
            ⟨some "Day", none, RETENTION_FIRST_TIME,
             some ⟨TREND_FILTER_TYPE_EVENTS, "signup"⟩,
             [⟨TREND_FILTER_TYPE_EVENTS, "$pageview"⟩]⟩
            "toStartOfDay").2)
      = (evalCond (fun _ _ => false) 0 ⟨"$pageview", 5⟩
           ((_get_event_filter
               ⟨some "Day", none, RETENTION_FIRST_TIME,
                some ⟨TREND_FILTER_TYPE_EVENTS, "signup"⟩,
                [⟨TREND_FILTER_TYPE_EVENTS, "$pageview"⟩]⟩
               "toStartOfDay").1)
         || (evalCond (fun _ _ => false) 0 ⟨"$pageview", 5⟩
               (_get_condition
                 (returningEntityOf true
                   ⟨some "Day", none, RETENTION_FIRST_TIME,
                    some ⟨TREND_FILTER_TYPE_EVENTS, "signup"⟩,
                    [⟨TREND_FILTER_TYPE_EVENTS, "$pageview"⟩]⟩)
                 "returning")
             && ((5 : Int) == 0))) :=
  returning_predicate_first_time
    ⟨some "Day", none, RETENTION_FIRST_TIME,
     some ⟨TREND_FILTER_TYPE_EVENTS, "signup"⟩,
     [⟨TREND_FILTER_TYPE_EVENTS, "$pageview"⟩]⟩
    "toStartOfDay" (fun _ _ => false) 0 ⟨"$pageview", 5⟩ rfl

/-- C2 as amended: whenever `calculate_retention` succeeds with
`total_intervals = N`, it returns exactly `N` rows; row `i` has exactly
`N - i` cells, and the cell at offset `k` of row `i` carries the folded
query count stored at key `(i, k)` — the second key component is the
offset `k ∈ [0, N - i)`, not an absolute bucket in `[i, N)` — with
`count = 0` when the key is absent. -/
theorem calculate_retention_matrix_shape (filter : RetFilter)
    (nowTime : PyDateTime) (N : Nat) (qres : List (Nat × Nat × Nat))
    (rows : List RetRow) (_hN : 0 < N)
    (h : calculate_retention filter nowTime N qres = Except.ok rows) :
    rows.length = N ∧
    ∀ i, i < N →
      (rows.getD i default).values.length = N - i ∧
      ∀ k, k < N - i →
        ((rows.getD i default).values.getD k default).count
          = (dictGet (i, k) (foldResultDict qres)).getD 0 := by
  simp only [calculate_retention] at h
  cases hdet : _determineTimedelta N (filter.period.getD "Day") with
  | error e => rw [hdet] at h; exact absurd h (by simp)
  | ok trip =>
    obtain ⟨tdelta, tf, t1⟩ := trip
    rw [hdet] at h
    simp only [Except.ok.injEq] at h
    subst h
    refine ⟨by simp, ?_⟩
    intro i hi
    rw [getD_map_range _ N i default hi]
    refine ⟨by simp, ?_⟩
    intro k hk
    rw [getD_map_range _ (N - i) k default hk]

/-- C2, counterexample: with `N = 2` and a single query row
`(1, 1, 5)`, the claim says row 1's only cell (for
`seen_bucket = 1 ∈ [1, 2)`) carries the folded count 5 for the pair
`(1, 1)`; the code instead looks up offset keys `(1, k)` for
`k ∈ [0, 1)`, so row 1's only cell has count 0. -/
theorem calculate_retention_offset_counterexample :
    calculate_retention ⟨some "Day", none, "", none, []⟩
        ⟨2021, 5, 10, 12, 0, 0, 0⟩ 2 [(1, 1, 5)]
      = Except.ok
          [⟨[⟨0⟩, ⟨0⟩], "Day 0", ⟨2021, 5, 9, 0, 0, 0, 0⟩⟩,
           ⟨[⟨0⟩], "Day 1", ⟨2021, 5, 10, 0, 0, 0, 0⟩⟩]
    ∧ (dictGet (1, 1) (foldResultDict [(1, 1, 5)])).getD 0 = 5
    ∧ (0 : Nat) ≠ 5 :=
  ⟨rfl, rfl, by decide⟩

/-- Witness for the amended C2 at `N = 2`, query rows `[(1, 1, 5)]`. -/
theorem calculate_retention_matrix_shape_witness :
    ([⟨[⟨0⟩, ⟨0⟩], "Day 0", ⟨2021, 5, 9, 0, 0, 0, 0⟩⟩,
      ⟨[⟨0⟩], "Day 1", ⟨2021, 5, 10, 0, 0, 0, 0⟩⟩] : List RetRow).length = 2
    ∧ ∀ i, i < 2 →
      (([⟨[⟨0⟩, ⟨0⟩], "Day 0", ⟨2021, 5, 9, 0, 0, 0, 0⟩⟩,
         ⟨[⟨0⟩], "Day 1", ⟨2021, 5, 10, 0, 0, 0, 0⟩⟩] : List RetRow).getD i
           default).values.length = 2 - i ∧
      ∀ k, k < 2 - i →
        ((([⟨[⟨0⟩, ⟨0⟩], "Day 0", ⟨2021, 5, 9, 0, 0, 0, 0⟩⟩,
           ⟨[⟨0⟩], "Day 1", ⟨2021, 5, 10, 0, 0, 0, 0⟩⟩] : List RetRow).getD i
             default).values.getD k default).count
          = (dictGet (i, k) (foldResultDict [(1, 1, 5)])).getD 0 :=
  calculate_retention_matrix_shape ⟨some "Day", none, "", none, []⟩
    ⟨2021, 5, 10, 12, 0, 0, 0⟩ 2 [(1, 1, 5)] _ (by decide) rfl

end Retention

namespace SessionRec

/-- C4: `matches` holds exactly on distinct-id equality, closed-closed
interval overlap, and (when the unseen-only filter is active) absence
from the viewed set; `collect_matching_recordings` yields exactly the
annotations of the candidates `matches` accepts, in order. -/
theorem recordingMatches_characterization :
    (∀ (s : SessionSpan) (r : Recording) (f : SessionsFilter)
       (v : List String),
       recordingMatches s r f v = true ↔
         (s.distinct_id = r.distinct_id ∧ s.start_time ≤ r.end_time ∧
          s.end_time ≥ r.start_time ∧
          (f.recording_unseen_filter = true → r.session_id ∉ v)))
    ∧ (∀ (s : SessionSpan) (rs : List Recording) (f : SessionsFilter)
         (v : List String),
         collect_matching_recordings s rs f v =
           (rs.filter (fun r => recordingMatches s r f v)).map
             (fun r => ⟨r.session_id, v.contains r.session_id⟩)) := by
  constructor
  · intro s r f v
    have hconv : ∀ x : String, v.contains x = false ↔ x ∉ v := by
      intro x
      rw [Bool.eq_false_iff, ne_eq]
      exact not_congr List.elem_iff
    simp only [recordingMatches, Bool.and_eq_true, beq_iff_eq,
      decide_eq_true_eq, Bool.or_eq_true, Bool.not_eq_true', hconv, and_assoc]
    constructor
    · rintro ⟨h1, h2, h3, h4⟩
      refine ⟨h1, h2, h3, fun hu => ?_⟩
      rcases h4 with h4 | h4
      · rw [hu] at h4; cases h4
      · exact h4
    · rintro ⟨h1, h2, h3, h4⟩
      refine ⟨h1, h2, h3, ?_⟩
      cases hu : f.recording_unseen_filter
      · exact Or.inl rfl
      · exact Or.inr (h4 hu)
  · intro s rs f v
    induction rs with
    | nil => rfl
    | cons r rest ih =>
      by_cases h : recordingMatches s r f v
      · simp [collect_matching_recordings, h, ih]
      · simp [collect_matching_recordings, h, ih]

end SessionRec

namespace SessionRec

theorem dictGet_dictInsert {κ ν : Type} [DecidableEq κ] (k k1 : κ) (v : ν)
    (d : List (κ × ν)) :
    dictGet k (dictInsert k1 v d) = if k1 = k then some v else dictGet k d := by
  induction d with
  | nil => simp [dictInsert, dictGet]
  | cons p rest ih =>
    obtain ⟨k2, v2⟩ := p
    by_cases h : k2 = k1
    · subst h
      by_cases h2 : k2 = k
      · subst h2; simp [dictInsert, dictGet]
      · simp [dictInsert, dictGet, h2]
    · by_cases h2 : k2 = k
      · subst h2
        have : ¬ k1 = k2 := fun hh => h hh.symm
        simp [dictInsert, dictGet, h, this]
      · simp [dictInsert, dictGet, h, h2, ih]

theorem mem_keys_of_dictGet {κ ν : Type} [DecidableEq κ] {k : κ}
    {d : List (κ × ν)} {v : ν} (h : dictGet k d = some v) :
    k ∈ d.map Prod.fst := by
  induction d with
  | nil => simp [dictGet] at h
  | cons p rest ih =>
    obtain ⟨k2, v2⟩ := p
    by_cases h2 : k2 = k
    · subst h2; simp
    · simp only [dictGet, if_neg h2] at h
      simp [ih h]

theorem length_le_of_all_keys (chunks : List (Nat × String)) (n : Nat)
    (hall : ∀ i : Nat, i < n → (dictGet i chunks).isSome) :
    n ≤ chunks.length := by
  have hsub : List.range n ⊆ chunks.map Prod.fst := by
    intro i hi
    rw [List.mem_range] at hi
    obtain ⟨v, hv⟩ := Option.isSome_iff_exists.mp (hall i hi)
    exact mem_keys_of_dictGet hv
  have := (List.subperm_of_subset (List.nodup_range n) hsub).length_le
  simpa using this

theorem assembleAux_isSome_get (chunks : List (Nat × String)) (n : Nat)
    (h : (assembleAux chunks n).isSome) :
    ∀ i, i < n → (dictGet i chunks).isSome := by
  induction n with
  | zero => intro i hi; cases hi
  | succ n ih =>
    intro i hi
    have hstep : (assembleAux chunks n).isSome ∧ (dictGet n chunks).isSome := by
      unfold assembleAux at h
      cases ha : assembleAux chunks n with
      | none => rw [ha] at h; simp at h
      | some acc =>
        rw [ha] at h
        cases hg : dictGet n chunks with
        | none => rw [hg] at h; simp at h
        | some s => exact ⟨rfl, rfl⟩
    rcases Nat.lt_succ_iff_lt_or_eq.mp hi with hlt | heq
    · exact ih hstep.1 i hlt
    · subst heq; exact hstep.2

theorem assembleAux_none_of_short (chunks : List (Nat × String)) (n : Nat)
    (hlt : chunks.length < n) :
    assembleAux chunks n = none := by
  cases ha : assembleAux chunks n with
  | none => rfl
  | some acc =>
    have hall := assembleAux_isSome_get chunks n (by rw [ha]; rfl)
    have := length_le_of_all_keys chunks n hall
    omega

theorem assembleAux_none_of_empty (chunks : List (Nat × String)) (n i : Nat)
    (hi : i < n) (h : dictGet i chunks = some "") :
    assembleAux chunks n = none := by
  induction n with
  | zero => cases hi
  | succ n ih =>
    unfold assembleAux
    rcases Nat.lt_succ_iff_lt_or_eq.mp hi with hlt | heq
    · rw [ih hlt]
    · subst heq
      cases ha : assembleAux chunks i with
      | none => rfl
      | some acc => rw [h]; simp

theorem concatStrings_append (a b : List String) :
    concatStrings (a ++ b) = concatStrings a ++ concatStrings b := by
  induction a with
  | nil => simp [concatStrings]
  | cons s rest ih => simp [concatStrings, ih, String.append_assoc]

theorem assembleAux_complete (chunks : List (Nat × String)) (n : Nat)
    (h : ∀ i, i < n → ∃ s, dictGet i chunks = some s ∧ s ≠ "") :
    assembleAux chunks n
      = some (concatStrings
          ((List.range n).map (fun i => (dictGet i chunks).getD ""))) := by
  induction n with
  | zero => rfl
  | succ n ih =>
    have ihn := ih (fun i hi => h i (Nat.lt_succ_of_lt hi))
    obtain ⟨s, hs, hne⟩ := h n (Nat.lt_succ_self n)
    unfold assembleAux
    rw [ihn, hs]
    simp only [if_neg hne]
    rw [List.range_succ, List.map_append, concatStrings_append]
    simp [concatStrings, hs]

end SessionRec

namespace SessionRec

theorem pass1_fst {α : Type} (items : List (SnapItem α))
    (m : List (String × Collector)) (sid : String) :
    dictGet sid (pass1 items m).1
      = extendCol (dictGet sid m) (fragmentsOf sid items) := by
  induction items generalizing m with
  | nil =>
    cases h : dictGet sid m with
    | none => simp [pass1, fragmentsOf, extendCol, h]
    | some col => simp [pass1, fragmentsOf, extendCol, h]
  | cons it rest ih =>
    cases it with
    | full v => simp [pass1, fragmentsOf, ih]
    | chunk c =>
      cases hc : dictGet c.snapshot_id m with
      | some col =>
        simp only [pass1, hc]
        rw [ih, dictGet_dictInsert]
        by_cases hs : c.snapshot_id = sid
        · subst hs
          simp [fragmentsOf, extendCol, hc]
        · simp [fragmentsOf, hs, hc]
      | none =>
        simp only [pass1, hc]
        rw [ih, dictGet_dictInsert]
        by_cases hs : c.snapshot_id = sid
        · subst hs
          rw [if_pos rfl, hc]
          simp only [fragmentsOf, if_pos rfl]
          simp [extendCol, List.foldl_cons, dictInsert]
        · simp [fragmentsOf, hs, hc]

theorem pass1_snd {α : Type} (items : List (SnapItem α))
    (m : List (String × Collector)) (seen : List String)
    (hrel : ∀ s : String, s ∈ seen ↔ (dictGet s m).isSome) :
    (pass1 items m).2 = firstSeenUnits items seen := by
  induction items generalizing m seen with
  | nil => simp [pass1, firstSeenUnits]
  | cons it rest ih =>
    cases it with
    | full v => simp [pass1, firstSeenUnits, ih m seen hrel]
    | chunk c =>
      cases hc : dictGet c.snapshot_id m with
      | some col =>
        have hmem : c.snapshot_id ∈ seen := (hrel _).mpr (by rw [hc]; rfl)
        simp only [pass1, hc, firstSeenUnits, if_pos hmem]
        apply ih
        intro s
        rw [hrel s, dictGet_dictInsert]
        by_cases hs : c.snapshot_id = s
        · subst hs; simp [hc]
        · simp [hs]
      | none =>
        have hmem : c.snapshot_id ∉ seen := by
          rw [hrel, hc]; simp
        simp only [pass1, hc, firstSeenUnits, if_neg hmem]
        congr 1
        apply ih
        intro s
        rw [dictGet_dictInsert]
        by_cases hs : c.snapshot_id = s
        · subst hs; simp
        · simp only [if_neg hs, List.mem_cons]
          rw [hrel s]
          constructor
          · rintro (h | h)
            · exact absurd h.symm hs
            · exact h
          · exact Or.inr

theorem pass2_spec {α : Type} (decode : String → α)
    (m : List (String × Collector)) (order : List (String ⊕ α))
    (hm : ∀ sid : String, Sum.inl sid ∈ order → (dictGet sid m).isSome) :
    pass2 decode m order
      = (order.filterMap (fun u => match u with
          | Sum.inr v => some v
          | Sum.inl sid => (dictGet sid m).bind
              (fun col => (assembleAux col.chunks col.count).map decode)),
         (order.filter (fun u => match u with
          | Sum.inr _ => false
          | Sum.inl sid => ((dictGet sid m).bind
              (fun col => (assembleAux col.chunks col.count).map decode)).isNone)).length) := by
  induction order with
  | nil => rfl
  | cons u rest ih =>
    have hrest := ih (fun sid hs => hm sid (List.mem_cons_of_mem _ hs))
    cases u with
    | inr v => simp [pass2, hrest, List.filterMap_cons, List.filter_cons]
    | inl sid =>
      obtain ⟨col, hcol⟩ :=
        Option.isSome_iff_exists.mp (hm sid (List.mem_cons_self _ _))
      cases hass : assembleAux col.chunks col.count with
      | some data =>
        simp [pass2, hrest, hcol, hass, List.filterMap_cons, List.filter_cons]
      | none =>
        simp [pass2, hrest, hcol, hass, List.filterMap_cons, List.filter_cons]

theorem fragments_ne_nil_of_mem_inl {α : Type} (sid : String)
    (items : List (SnapItem α)) :
    ∀ seen, Sum.inl sid ∈ firstSeenUnits items seen →
      fragmentsOf sid items ≠ [] := by
  induction items with
  | nil => intro seen h; simp [firstSeenUnits] at h
  | cons it rest ih =>
    intro seen h
    cases it with
    | full v =>
      simp only [firstSeenUnits, List.mem_cons] at h
      rcases h with h | h
      · exact absurd h (by simp)
      · simpa [fragmentsOf] using ih seen h
    | chunk c =>
      by_cases hm : c.snapshot_id ∈ seen
      · simp only [firstSeenUnits, if_pos hm] at h
        have := ih seen h
        simp only [fragmentsOf]
        by_cases he : c.snapshot_id = sid
        · simp [he]
        · simpa [he] using this
      · simp only [firstSeenUnits, if_neg hm, List.mem_cons] at h
        simp only [fragmentsOf]
        by_cases he : c.snapshot_id = sid
        · simp [he]
        · rcases h with h | h
          · have : sid = c.snapshot_id := by
              simpa using h
            exact absurd this.symm he
          · simpa [he] using ih _ h

theorem merge_snapshot_chunks_units {α : Type} (decode : String → α)
    (items : List (SnapItem α)) :
    merge_snapshot_chunks decode items
      = ((firstSeenUnits items []).filterMap (emitOf decode items),
         ((firstSeenUnits items []).filter
            (fun u => (emitOf decode items u).isNone)).length) := by
  have horder : (pass1 items []).2 = firstSeenUnits items [] :=
    pass1_snd items [] [] (by intro s; simp [dictGet])
  have hmap : ∀ sid : String, dictGet sid (pass1 items []).1
      = extendCol none (fragmentsOf sid items) := by
    intro sid
    rw [pass1_fst]
    rfl
  have hcong : ∀ u ∈ firstSeenUnits items [],
      (match u with
        | Sum.inr v => some v
        | Sum.inl sid => (dictGet sid (pass1 items []).1).bind
            (fun col => (assembleAux col.chunks col.count).map decode))
        = emitOf decode items u := by
    intro u hu
    cases u with
    | inr v => rfl
    | inl sid =>
      have hne := fragments_ne_nil_of_mem_inl sid items [] hu
      dsimp only
      cases hfc : fragmentsOf sid items with
      | nil => exact absurd hfc hne
      | cons c fs =>
        rw [hmap sid, hfc]
        simp only [extendCol, Option.some_bind, emitOf, finalChunks,
          declaredCount, hfc]
  have hm : ∀ sid : String, Sum.inl sid ∈ (pass1 items []).2 →
      (dictGet sid (pass1 items []).1).isSome := by
    intro sid hs
    rw [horder] at hs
    have hne := fragments_ne_nil_of_mem_inl sid items [] hs
    rw [hmap sid]
    cases hfc : fragmentsOf sid items with
    | nil => exact absurd hfc hne
    | cons c fs => simp [extendCol]
  unfold merge_snapshot_chunks
  rw [pass2_spec decode _ _ hm, horder]
  have h1 : (firstSeenUnits items []).filterMap (fun u => match u with
      | Sum.inr v => some v
      | Sum.inl sid => (dictGet sid (pass1 items []).1).bind
          (fun col => (assembleAux col.chunks col.count).map decode))
      = (firstSeenUnits items []).filterMap (emitOf decode items) :=
    List.filterMap_congr hcong
  have h2 : (firstSeenUnits items []).filter (fun u => match u with
      | Sum.inr _ => false
      | Sum.inl sid => ((dictGet sid (pass1 items []).1).bind
          (fun col => (assembleAux col.chunks col.count).map decode)).isNone)
      = (firstSeenUnits items []).filter
          (fun u => (emitOf decode items u).isNone) := by
    apply List.filter_congr
    intro u hu
    cases u with
    | inr v => rfl
    | inl sid =>
      dsimp only
      have h := hcong _ hu
      dsimp only at h
      rw [h]
  rw [h1, h2]

end SessionRec

namespace SessionRec

/-- C7: the output list of `merge_snapshot_chunks` is exactly the
first-appearance sequence of the stream's logical units, each full
snapshot at its own arrival position and each chunk group at its first
fragment's position, with every unit's contribution (`emitOf`)
determined by the whole stream — so completion order never reorders
the output. -/
theorem merge_output_first_appearance_order {α : Type} (decode : String → α)
    (items : List (SnapItem α)) :
    merge_snapshot_chunks decode items
      = ((firstSeenUnits items []).filterMap (emitOf decode items),
         ((firstSeenUnits items []).filter
            (fun u => (emitOf decode items u).isNone)).length) :=
  merge_snapshot_chunks_units decode items

theorem filterMap_eq_filterMap_filter {β γ : Type} (f : β → Option γ)
    (p : β → Bool) (l : List β)
    (h : ∀ u ∈ l, p u = false → f u = none) :
    l.filterMap f = (l.filter p).filterMap f := by
  induction l with
  | nil => rfl
  | cons x rest ih =>
    have hrest := ih (fun u hu => h u (List.mem_cons_of_mem _ hu))
    cases hp : p x
    · rw [List.filterMap_cons, h x (List.mem_cons_self _ _) hp]
      simp [List.filter_cons, hp, hrest]
    · simp [List.filterMap_cons, List.filter_cons, hp, hrest]

theorem length_filter_split {β : Type} (q p : β → Bool) (l : List β)
    (h : ∀ u ∈ l, p u = false → q u = true) :
    (l.filter q).length
      = ((l.filter p).filter q).length
        + (l.filter (fun u => !(p u))).length := by
  induction l with
  | nil => rfl
  | cons x rest ih =>
    have hrest := ih (fun u hu => h u (List.mem_cons_of_mem _ hu))
    cases hp : p x
    · have hq := h x (List.mem_cons_self _ _) hp
      simp [List.filter_cons, hp, hq, hrest]
      try omega
    · cases hq : q x <;> (simp [List.filter_cons, hp, hq, hrest]; try omega)

theorem firstSeenUnits_no_group_of_seen {α : Type} (g : String)
    (items : List (SnapItem α)) :
    ∀ seen, g ∈ seen →
      (firstSeenUnits items seen).filter
          (fun u => !(isNotGroup g u)) = [] := by
  induction items with
  | nil => intro seen hg; rfl
  | cons it rest ih =>
    intro seen hg
    cases it with
    | full v => simpa [firstSeenUnits, List.filter_cons, isNotGroup] using ih seen hg
    | chunk c =>
      by_cases hm : c.snapshot_id ∈ seen
      · simp only [firstSeenUnits, if_pos hm]
        exact ih seen hg
      · have hne : c.snapshot_id ≠ g := fun he => hm (he ▸ hg)
        simp only [firstSeenUnits, if_neg hm, List.filter_cons]
        have : (!(isNotGroup g (Sum.inl c.snapshot_id : String ⊕ α))) = false := by
          simp [isNotGroup, hne]
        rw [this]
        simp only [Bool.false_eq_true, if_false]
        exact ih _ (List.mem_cons_of_mem _ hg)

theorem firstSeenUnits_group_once {α : Type} (g : String)
    (items : List (SnapItem α)) :
    ∀ seen, g ∉ seen → fragmentsOf g items ≠ [] →
      (firstSeenUnits items seen).filter
          (fun u => !(isNotGroup g u)) = [Sum.inl g] := by
  induction items with
  | nil => intro seen hg hfr; exact absurd rfl hfr
  | cons it rest ih =>
    intro seen hg hfr
    cases it with
    | full v =>
      simp only [fragmentsOf] at hfr
      simpa [firstSeenUnits, List.filter_cons, isNotGroup] using ih seen hg hfr
    | chunk c =>
      by_cases he : c.snapshot_id = g
      · subst he
        have hm : c.snapshot_id ∉ seen := hg
        simp only [firstSeenUnits, if_neg hm, List.filter_cons]
        have : (!(isNotGroup c.snapshot_id
            (Sum.inl c.snapshot_id : String ⊕ α))) = true := by
          simp [isNotGroup]
        rw [this]
        simp only [if_pos]
        rw [firstSeenUnits_no_group_of_seen c.snapshot_id rest _
          (List.mem_cons_self _ _)]
      · have hfr2 : fragmentsOf g rest ≠ [] := by
          simpa [fragmentsOf, he] using hfr
        by_cases hm : c.snapshot_id ∈ seen
        · simp only [firstSeenUnits, if_pos hm]
          exact ih seen hg hfr2
        · simp only [firstSeenUnits, if_neg hm, List.filter_cons]
          have : (!(isNotGroup g (Sum.inl c.snapshot_id : String ⊕ α)))
              = false := by
            simp [isNotGroup, he]
          rw [this]
          simp only [Bool.false_eq_true, if_false]
          refine ih _ ?_ hfr2
          intro hmem
          rcases List.mem_cons.mp hmem with h | h
          · exact he h.symm
          · exact hg h

theorem merge_drop_of_group_emit_none {α : Type} (decode : String → α)
    (items : List (SnapItem α)) (g : String)
    (h1 : fragmentsOf g items ≠ [])
    (hnone : emitOf decode items (Sum.inl g) = none) :
    merge_snapshot_chunks decode items
      = (((firstSeenUnits items []).filter (isNotGroup g)).filterMap
           (emitOf decode items),
         (((firstSeenUnits items []).filter (isNotGroup g)).filter
            (fun u => (emitOf decode items u).isNone)).length + 1) := by
  rw [merge_snapshot_chunks_units]
  have hdrop : ∀ u ∈ firstSeenUnits items [], isNotGroup g u = false →
      emitOf decode items u = none := by
    intro u _ hp
    cases u with
    | inr v => simp [isNotGroup] at hp
    | inl s =>
      have : s = g := by simpa [isNotGroup] using hp
      subst this
      exact hnone
  have hq : ∀ u ∈ firstSeenUnits items [], isNotGroup g u = false →
      (emitOf decode items u).isNone = true := by
    intro u hu hp
    rw [hdrop u hu hp]
    rfl
  have hone := firstSeenUnits_group_once g items [] (by simp) h1
  rw [filterMap_eq_filterMap_filter (emitOf decode items) (isNotGroup g) _ hdrop,
      length_filter_split (fun u => (emitOf decode items u).isNone)
        (isNotGroup g) _ hq, hone]
  rfl

end SessionRec

namespace SessionRec

/-- C6: when the stream ends with group `g`'s collector short of its
declared count (fewer recorded indices than `chunk_count`), the merge
output is exactly the other units' output — every other complete group
and every non-chunked payload, in first-appearance order — and the
diagnostic count is one more than theirs. -/
theorem merge_incomplete_group_dropped {α : Type} (decode : String → α)
    (items : List (SnapItem α)) (g : String)
    (h1 : fragmentsOf g items ≠ [])
    (h2 : (finalChunks g items).length < declaredCount g items) :
    merge_snapshot_chunks decode items
      = (((firstSeenUnits items []).filter (isNotGroup g)).filterMap
           (emitOf decode items),
         (((firstSeenUnits items []).filter (isNotGroup g)).filter
            (fun u => (emitOf decode items u).isNone)).length + 1) := by
  apply merge_drop_of_group_emit_none decode items g h1
  simp only [emitOf]
  rw [assembleAux_none_of_short _ _ h2]
  rfl

/-- Witness for C6: group `"g"` declares 3 chunks but only indices 0,1
arrive; the sibling non-chunked payload `"X"` is still emitted and one
diagnostic is reported. -/
theorem merge_incomplete_group_dropped_witness :
    merge_snapshot_chunks (fun s => s)
        [SnapItem.chunk ⟨"g", 0, 3, "a"⟩, SnapItem.full "X",
         SnapItem.chunk ⟨"g", 1, 3, "b"⟩]
      = (((firstSeenUnits
             [SnapItem.chunk ⟨"g", 0, 3, "a"⟩, SnapItem.full "X",
              SnapItem.chunk ⟨"g", 1, 3, "b"⟩] []).filter
            (isNotGroup "g")).filterMap
           (emitOf (fun s => s)
             [SnapItem.chunk ⟨"g", 0, 3, "a"⟩, SnapItem.full "X",
              SnapItem.chunk ⟨"g", 1, 3, "b"⟩]),
         (((firstSeenUnits
              [SnapItem.chunk ⟨"g", 0, 3, "a"⟩, SnapItem.full "X",
               SnapItem.chunk ⟨"g", 1, 3, "b"⟩] []).filter
             (isNotGroup "g")).filter
            (fun u => (emitOf (fun s => s)
              [SnapItem.chunk ⟨"g", 0, 3, "a"⟩, SnapItem.full "X",
               SnapItem.chunk ⟨"g", 1, 3, "b"⟩] u).isNone)).length + 1) :=
  merge_incomplete_group_dropped (fun s => s)
    [SnapItem.chunk ⟨"g", 0, 3, "a"⟩, SnapItem.full "X",
     SnapItem.chunk ⟨"g", 1, 3, "b"⟩] "g" (by decide) (by decide)

/-- C9: if some required index `i < chunk_count` of group `g` holds the
empty string — Python's falsy test `not chunks.get(i)` — the group is
treated as incomplete (no payload, one diagnostic) even though every
index in `[0, chunk_count)` was recorded. -/
theorem merge_empty_chunk_data_dropped {α : Type} (decode : String → α)
    (items : List (SnapItem α)) (g : String) (i : Nat)
    (h1 : fragmentsOf g items ≠ [])
    (_hall : ∀ j, j < declaredCount g items →
      (dictGet j (finalChunks g items)).isSome)
    (hi : i < declaredCount g items)
    (hempty : dictGet i (finalChunks g items) = some "") :
    merge_snapshot_chunks decode items
      = (((firstSeenUnits items []).filter (isNotGroup g)).filterMap
           (emitOf decode items),
         (((firstSeenUnits items []).filter (isNotGroup g)).filter
            (fun u => (emitOf decode items u).isNone)).length + 1) := by
  apply merge_drop_of_group_emit_none decode items g h1
  simp only [emitOf]
  rw [assembleAux_none_of_empty _ _ i hi hempty]
  rfl

/-- Witness for C9: group `"g"` declares 2 chunks, both indices arrive,
but index 1 carries the empty string — no payload, one diagnostic. -/
theorem merge_empty_chunk_data_dropped_witness :
    merge_snapshot_chunks (fun s => s)
        [SnapItem.chunk ⟨"g", 0, 2, "a"⟩, SnapItem.chunk ⟨"g", 1, 2, ""⟩]
      = (((firstSeenUnits
             [SnapItem.chunk ⟨"g", 0, 2, "a"⟩,
              SnapItem.chunk ⟨"g", 1, 2, ""⟩] []).filter
            (isNotGroup "g")).filterMap
           (emitOf (fun s => s)
             [SnapItem.chunk ⟨"g", 0, 2, "a"⟩,
              SnapItem.chunk ⟨"g", 1, 2, ""⟩]),
         (((firstSeenUnits
              [SnapItem.chunk ⟨"g", 0, 2, "a"⟩,
               SnapItem.chunk ⟨"g", 1, 2, ""⟩] []).filter
             (isNotGroup "g")).filter
            (fun u => (emitOf (fun s => s)
              [SnapItem.chunk ⟨"g", 0, 2, "a"⟩,
               SnapItem.chunk ⟨"g", 1, 2, ""⟩] u).isNone)).length + 1) :=
  merge_empty_chunk_data_dropped (fun s => s)
    [SnapItem.chunk ⟨"g", 0, 2, "a"⟩, SnapItem.chunk ⟨"g", 1, 2, ""⟩]
    "g" 1 (by decide) (by decide) (by decide) (by decide)

end SessionRec

namespace SessionRec

theorem firstSeenUnits_override {α : Type} (h : Chunk → Nat)
    (items : List (SnapItem α)) :
    ∀ seen, firstSeenUnits (overrideLaterCounts h items seen) seen
      = firstSeenUnits items seen := by
  induction items with
  | nil => intro seen; rfl
  | cons it rest ih =>
    intro seen
    cases it with
    | full v => simp [overrideLaterCounts, firstSeenUnits, ih]
    | chunk c =>
      by_cases hm : c.snapshot_id ∈ seen
      · simp [overrideLaterCounts, firstSeenUnits, hm, ih]
      · simp [overrideLaterCounts, firstSeenUnits, hm, ih]

theorem fragmentsOf_override_pairs {α : Type} (h : Chunk → Nat)
    (sid : String) (items : List (SnapItem α)) :
    ∀ seen, (fragmentsOf sid (overrideLaterCounts h items seen)).map
        (fun c => (c.chunk_index, c.chunk_data))
      = (fragmentsOf sid items).map
          (fun c => (c.chunk_index, c.chunk_data)) := by
  induction items with
  | nil => intro seen; rfl
  | cons it rest ih =>
    intro seen
    cases it with
    | full v => simp [overrideLaterCounts, fragmentsOf, ih]
    | chunk c =>
      by_cases hs : c.snapshot_id = sid
      · subst hs
        by_cases hm : c.snapshot_id ∈ seen
        · simp [overrideLaterCounts, fragmentsOf, hm, ih]
        · simp [overrideLaterCounts, fragmentsOf, hm, ih]
      · by_cases hm : c.snapshot_id ∈ seen
        · simp [overrideLaterCounts, fragmentsOf, hm, hs, ih]
        · simp [overrideLaterCounts, fragmentsOf, hm, hs, ih]

theorem declaredCount_override {α : Type} (h : Chunk → Nat) (sid : String)
    (items : List (SnapItem α)) :
    ∀ seen, sid ∉ seen →
      declaredCount sid (overrideLaterCounts h items seen)
        = declaredCount sid items := by
  induction items with
  | nil => intro seen _; rfl
  | cons it rest ih =>
    intro seen hs
    cases it with
    | full v =>
      simp only [overrideLaterCounts, declaredCount, fragmentsOf]
      exact ih seen hs
    | chunk c =>
      by_cases he : c.snapshot_id = sid
      · subst he
        have hm : c.snapshot_id ∉ seen := hs
        simp [overrideLaterCounts, hm, declaredCount, fragmentsOf]
      · by_cases hm : c.snapshot_id ∈ seen
        · simp only [overrideLaterCounts, if_pos hm, declaredCount,
            fragmentsOf, if_neg he]
          exact ih seen hs
        · simp only [overrideLaterCounts, if_neg hm, declaredCount,
            fragmentsOf, if_neg he]
          refine ih _ ?_
          intro hmem
          rcases List.mem_cons.mp hmem with hh | hh
          · exact he hh.symm
          · exact hs hh

theorem finalChunks_override {α : Type} (h : Chunk → Nat) (sid : String)
    (items : List (SnapItem α)) (seen : List String) :
    finalChunks sid (overrideLaterCounts h items seen)
      = finalChunks sid items := by
  unfold finalChunks
  have e1 := List.foldl_map (fun c : Chunk => (c.chunk_index, c.chunk_data))
    (fun d (p : Nat × String) => dictInsert p.1 p.2 d)
    (fragmentsOf sid (overrideLaterCounts h items seen)) ([] : List (Nat × String))
  have e2 := List.foldl_map (fun c : Chunk => (c.chunk_index, c.chunk_data))
    (fun d (p : Nat × String) => dictInsert p.1 p.2 d)
    (fragmentsOf sid items) ([] : List (Nat × String))
  rw [← e1, ← e2, fragmentsOf_override_pairs]

/-- C10: the completeness test uses only the first-seen fragment's
`chunk_count` — rewriting the declared count of every later fragment
of every group (by an arbitrary function `f`) leaves the whole merge
output and diagnostic count unchanged — and the declared total of a
group is its first fragment's `chunk_count`. -/
theorem merge_ignores_later_chunk_counts {α : Type} (decode : String → α)
    (items : List (SnapItem α)) (f : Chunk → Nat) :
    merge_snapshot_chunks decode (overrideLaterCounts f items [])
      = merge_snapshot_chunks decode items
    ∧ ∀ (sid : String) (c : Chunk) (fs : List Chunk),
        fragmentsOf sid items = c :: fs →
          declaredCount sid items = c.chunk_count := by
  constructor
  · have hemit : ∀ u : String ⊕ α,
        emitOf decode (overrideLaterCounts f items []) u
          = emitOf decode items u := by
      intro u
      cases u with
      | inr v => rfl
      | inl sid =>
        simp only [emitOf]
        rw [finalChunks_override, declaredCount_override f sid items [] (by simp)]
    rw [merge_snapshot_chunks_units, merge_snapshot_chunks_units,
      firstSeenUnits_override]
    rw [List.filterMap_congr (fun u _ => hemit u)]
    rw [List.filter_congr (fun u _ => by rw [hemit u])]
  · intro sid c fs hfc
    simp [declaredCount, hfc]

/-- Witness for C10: a later fragment of group `"g"` declaring
`chunk_count = 99` (here rewritten from 2) does not change the result. -/
theorem merge_ignores_later_chunk_counts_witness :
    merge_snapshot_chunks (fun s => s)
        (overrideLaterCounts (fun _ => 99)
          [SnapItem.chunk ⟨"g", 0, 2, "a"⟩, SnapItem.chunk ⟨"g", 1, 2, "b"⟩] [])
      = merge_snapshot_chunks (fun s => s)
          [SnapItem.chunk ⟨"g", 0, 2, "a"⟩, SnapItem.chunk ⟨"g", 1, 2, "b"⟩]
    ∧ ∀ (sid : String) (c : Chunk) (fs : List Chunk),
        fragmentsOf sid
            ([SnapItem.chunk ⟨"g", 0, 2, "a"⟩,
              SnapItem.chunk ⟨"g", 1, 2, "b"⟩] : List (SnapItem String))
          = c :: fs →
          declaredCount sid
              ([SnapItem.chunk ⟨"g", 0, 2, "a"⟩,
                SnapItem.chunk ⟨"g", 1, 2, "b"⟩] : List (SnapItem String))
            = c.chunk_count :=
  merge_ignores_later_chunk_counts (fun s => s)
    [SnapItem.chunk ⟨"g", 0, 2, "a"⟩, SnapItem.chunk ⟨"g", 1, 2, "b"⟩]
    (fun _ => 99)

end SessionRec

namespace SessionRec

theorem firstSeenUnits_skip_all {α : Type} (l : List Chunk)
    (seen : List String) (h : ∀ c ∈ l, c.snapshot_id ∈ seen) :
    firstSeenUnits (l.map (SnapItem.chunk : Chunk → SnapItem α)) seen = [] := by
  induction l with
  | nil => rfl
  | cons c rest ih =>
    simp only [List.map_cons, firstSeenUnits,
      if_pos (h c (List.mem_cons_self _ _))]
    exact ih (fun c2 hc2 => h c2 (List.mem_cons_of_mem _ hc2))

theorem firstSeenUnits_single {α : Type} (g : String) (l : List Chunk)
    (hid : ∀ c ∈ l, c.snapshot_id = g) (hne : l ≠ []) :
    firstSeenUnits (l.map (SnapItem.chunk : Chunk → SnapItem α)) []
      = [Sum.inl g] := by
  cases l with
  | nil => exact absurd rfl hne
  | cons c rest =>
    have hc := hid c (List.mem_cons_self _ _)
    have hrest : firstSeenUnits
        (rest.map (SnapItem.chunk : Chunk → SnapItem α))
        [c.snapshot_id] = [] := by
      apply firstSeenUnits_skip_all
      intro c2 hc2
      rw [hid c2 (List.mem_cons_of_mem _ hc2), ← hc]
      exact List.mem_cons_self _ _
    simp only [List.map_cons, firstSeenUnits]
    rw [if_neg (List.not_mem_nil c.snapshot_id), hrest, hc]

theorem fragmentsOf_single {α : Type} (g : String) (l : List Chunk)
    (hid : ∀ c ∈ l, c.snapshot_id = g) :
    fragmentsOf g (l.map (SnapItem.chunk : Chunk → SnapItem α)) = l := by
  induction l with
  | nil => rfl
  | cons c rest ih =>
    simp only [List.map_cons, fragmentsOf,
      if_pos (hid c (List.mem_cons_self _ _))]
    rw [ih (fun c2 hc2 => hid c2 (List.mem_cons_of_mem _ hc2))]

theorem dictGet_foldl_nodup (i : Nat) :
    ∀ l : List Chunk, (l.map Chunk.chunk_index).Nodup →
    ∀ acc, dictGet i
        (l.foldl (fun d c => dictInsert c.chunk_index c.chunk_data d) acc)
      = (match l.find? (fun c => c.chunk_index == i) with
         | some c => some c.chunk_data
         | none => dictGet i acc) := by
  intro l
  induction l with
  | nil => intro _ acc; rfl
  | cons c rest ih =>
    intro hnd acc
    simp only [List.map_cons, List.nodup_cons] at hnd
    rw [List.foldl_cons, ih hnd.2 _]
    by_cases hci : c.chunk_index = i
    · have hfr : rest.find? (fun c2 => c2.chunk_index == i) = none := by
        apply List.find?_eq_none.mpr
        intro c2 hc2
        simp only [beq_iff_eq]
        intro he
        exact hnd.1 (by rw [hci, ← he]; exact List.mem_map_of_mem _ hc2)
      rw [hfr, List.find?_cons_of_pos _ (by simp [hci])]
      simp only [dictGet_dictInsert, if_pos hci]
    · rw [List.find?_cons_of_neg _ (by simp [hci])]
      cases hfr : rest.find? (fun c2 => c2.chunk_index == i) with
      | some c2 => rfl
      | none => simp only [dictGet_dictInsert, if_neg hci]

theorem getD_foldl_eq_indexData (l : List Chunk)
    (hnd : (l.map Chunk.chunk_index).Nodup) (i : Nat) :
    (dictGet i
        (l.foldl (fun d c => dictInsert c.chunk_index c.chunk_data d) [])).getD ""
      = indexData l i := by
  rw [dictGet_foldl_nodup i l hnd []]
  cases hf : l.find? (fun c => c.chunk_index == i) with
  | some c => simp [indexData, hf]
  | none => simp [indexData, hf, dictGet]

theorem indexData_perm (l l2 : List Chunk) (hperm : l.Perm l2)
    (hnd : (l.map Chunk.chunk_index).Nodup) (i : Nat) :
    indexData l i = indexData l2 i := by
  unfold indexData
  cases h1 : l.find? (fun c => c.chunk_index == i) with
  | none =>
    have h2 : l2.find? (fun c => c.chunk_index == i) = none := by
      apply List.find?_eq_none.mpr
      intro c hc
      exact List.find?_eq_none.mp h1 c (hperm.symm.subset hc)
    rw [h2]
  | some c =>
    have hcl := List.mem_of_find?_eq_some h1
    have hpc := List.find?_some h1
    have hsome : (l2.find? (fun c2 => c2.chunk_index == i)).isSome :=
      List.find?_isSome.mpr ⟨c, hperm.subset hcl, hpc⟩
    obtain ⟨c2, hc2⟩ := Option.isSome_iff_exists.mp hsome
    have hc2l : c2 ∈ l := hperm.symm.subset (List.mem_of_find?_eq_some hc2)
    have hpc2 := List.find?_some hc2
    have hcc : c = c2 := by
      apply List.inj_on_of_nodup_map hnd hcl hc2l
      simp only [beq_iff_eq] at hpc hpc2
      rw [hpc, hpc2]
    rw [hc2, ← hcc]

theorem merge_single_group {α : Type} (decode : String → α) (g : String)
    (n : Nat) (l : List Chunk)
    (hn : 0 < n)
    (hid : ∀ c ∈ l, c.snapshot_id = g)
    (hcnt : ∀ c ∈ l, c.chunk_count = n)
    (hidx : (l.map Chunk.chunk_index).Perm (List.range n))
    (hdata : ∀ c ∈ l, c.chunk_data ≠ "") :
    merge_snapshot_chunks decode (l.map SnapItem.chunk)
      = ([decode (concatStrings ((List.range n).map (indexData l)))], 0) := by
  have hnd : (l.map Chunk.chunk_index).Nodup :=
    hidx.nodup_iff.mpr (List.nodup_range n)
  have hlen : l.length = n := by simpa using hidx.length_eq
  have hne : l ≠ [] := by
    intro he
    rw [he] at hlen
    simp at hlen
    omega
  have hfrag : fragmentsOf g (l.map (SnapItem.chunk : Chunk → SnapItem α)) = l :=
    fragmentsOf_single g l hid
  have hunits := firstSeenUnits_single (α := α) g l hid hne
  have hcount : declaredCount g (l.map (SnapItem.chunk : Chunk → SnapItem α)) = n := by
    unfold declaredCount
    rw [hfrag]
    cases l with
    | nil => exact absurd rfl hne
    | cons c rest => exact hcnt c (List.mem_cons_self _ _)
  have hfc : finalChunks g (l.map (SnapItem.chunk : Chunk → SnapItem α))
      = l.foldl (fun d c => dictInsert c.chunk_index c.chunk_data d) [] := by
    unfold finalChunks
    rw [hfrag]
  have hcompl : ∀ i, i < n →
      ∃ s, dictGet i
          (l.foldl (fun d c => dictInsert c.chunk_index c.chunk_data d) [])
        = some s ∧ s ≠ "" := by
    intro i hi
    have hmem : i ∈ l.map Chunk.chunk_index :=
      hidx.mem_iff.mpr (List.mem_range.mpr hi)
    obtain ⟨c, hcl, hci⟩ := List.mem_map.mp hmem
    have hsome : (l.find? (fun c2 => c2.chunk_index == i)).isSome :=
      List.find?_isSome.mpr ⟨c, hcl, by simp [hci]⟩
    obtain ⟨c2, hc2⟩ := Option.isSome_iff_exists.mp hsome
    have hc2l := List.mem_of_find?_eq_some hc2
    rw [dictGet_foldl_nodup i l hnd [], hc2]
    exact ⟨c2.chunk_data, rfl, hdata c2 hc2l⟩
  have hass := assembleAux_complete
    (l.foldl (fun d c => dictInsert c.chunk_index c.chunk_data d) []) n hcompl
  have hmapc : (List.range n).map (fun i =>
      (dictGet i
        (l.foldl (fun d c => dictInsert c.chunk_index c.chunk_data d) [])).getD "")
      = (List.range n).map (indexData l) :=
    List.map_congr_left (fun i _ => getD_foldl_eq_indexData l hnd i)
  have hemit : emitOf decode (l.map SnapItem.chunk) (Sum.inl g)
      = some (decode
          (concatStrings ((List.range n).map (indexData l)))) := by
    simp only [emitOf]
    rw [hfc, hcount, hass, hmapc]
    rfl
  rw [merge_snapshot_chunks_units, hunits]
  simp [hemit]

/-- C3 as amended: for a single chunk group `g` whose fragments carry
pairwise distinct indices forming exactly `0..n-1` (`n > 0`), all with
the same declared count `n` and nonempty `chunk_data`, every
permutation `l2` of the fragment list yields the same single emitted
payload — the decoding of the fragments' `chunk_data` concatenated in
increasing `chunk_index` order — with no diagnostic (the nonemptiness
and distinctness conditions are necessary: see the counterexample). -/
theorem merge_single_group_perm {α : Type} (decode : String → α)
    (g : String) (n : Nat) (l l2 : List Chunk)
    (hn : 0 < n)
    (hid : ∀ c ∈ l, c.snapshot_id = g)
    (hcnt : ∀ c ∈ l, c.chunk_count = n)
    (hidx : (l.map Chunk.chunk_index).Perm (List.range n))
    (hdata : ∀ c ∈ l, c.chunk_data ≠ "")
    (hperm : l.Perm l2) :
    merge_snapshot_chunks decode (l2.map SnapItem.chunk)
      = ([decode (concatStrings ((List.range n).map (indexData l)))], 0) := by
  have hid2 : ∀ c ∈ l2, c.snapshot_id = g :=
    fun c hc => hid c (hperm.symm.subset hc)
  have hcnt2 : ∀ c ∈ l2, c.chunk_count = n :=
    fun c hc => hcnt c (hperm.symm.subset hc)
  have hdata2 : ∀ c ∈ l2, c.chunk_data ≠ "" :=
    fun c hc => hdata c (hperm.symm.subset hc)
  have hidx2 : (l2.map Chunk.chunk_index).Perm (List.range n) :=
    ((hperm.map Chunk.chunk_index).symm.trans hidx)
  have hnd : (l.map Chunk.chunk_index).Nodup :=
    hidx.nodup_iff.mpr (List.nodup_range n)
  rw [merge_single_group decode g n l2 hn hid2 hcnt2 hidx2 hdata2]
  have : (List.range n).map (indexData l2) = (List.range n).map (indexData l) :=
    List.map_congr_left (fun i _ => (indexData_perm l l2 hperm hnd i).symm)
  rw [this]

/-- Witness for the amended C3: fragments of group `"g"` with data
`"c"`, `"a"`, `"b"` at indices 2, 0, 1, fed in the permuted order
0, 1, 2, emit exactly the index-ordered concatenation. -/
theorem merge_single_group_perm_witness :
    merge_snapshot_chunks (fun s => s)
        ([⟨"g", 0, 3, "a"⟩, ⟨"g", 1, 3, "b"⟩,
          ⟨"g", 2, 3, "c"⟩].map SnapItem.chunk)
      = ([(fun s : String => s) (concatStrings ((List.range 3).map
            (indexData [⟨"g", 2, 3, "c"⟩, ⟨"g", 0, 3, "a"⟩,
                        ⟨"g", 1, 3, "b"⟩])))], 0) :=
  merge_single_group_perm (fun s => s) "g" 3
    [⟨"g", 2, 3, "c"⟩, ⟨"g", 0, 3, "a"⟩, ⟨"g", 1, 3, "b"⟩]
    [⟨"g", 0, 3, "a"⟩, ⟨"g", 1, 3, "b"⟩, ⟨"g", 2, 3, "c"⟩]
    (by decide) (by decide) (by decide) (by decide) (by decide) (by decide)

/-- C3, counterexample: the single fragment of group `"g"` covers every
index in `0..0`, yet because its `chunk_data` is the empty string
(falsy at the completeness test) the group emits nothing and reports a
diagnostic — not the claimed one-time emission of the decoded
concatenation. -/
theorem merge_single_group_counterexample :
    merge_snapshot_chunks (fun s => s) [SnapItem.chunk ⟨"g", 0, 1, ""⟩]
      = ([], 1)
    ∧ (([], 1) : List String × Nat) ≠ ([(fun s : String => s) ""], 0) :=
  ⟨rfl, by decide⟩

end SessionRec
